import Mathlib

/-!
Verification of `robustbench/eval/lipschitz.py`.

The numerical core works on real-valued tensors.  We embed tensor
coordinates as rationals (`ℚ`), a single sample as `List ℚ`, and a batch
as `List (List ℚ)`.  The evaluated model (together with the flattening and
the optional L2 normalisation of its output) is an opaque differentiable
callable; it enters the development as a function parameter, and the
gradient produced by automatic differentiation enters as a separate oracle
parameter, exactly as the specification describes the model: a black-box
differentiable function injected at every level.
-/

namespace Advbench

/-- Embedding of `box` (lipschitz.py, lines 15-19), per coordinate:
`min_x = max(0, x - eps)`, `max_x = min(1, x + eps)`,
result `= max(min_x, min(x_prime, max_x))`. -/
def box (x_prime x eps : ℚ) : ℚ :=
  max (max 0 (x - eps)) (min x_prime (min 1 (x + eps)))

/-- `box` lifted elementwise to whole tensors (torch applies it
coordinate-wise to same-shaped tensors). -/
def boxT (x_prime x : List ℚ) (eps : ℚ) : List ℚ :=
  List.zipWith (fun a b => box a b eps) x_prime x

theorem boxT_get (x_prime x : List ℚ) (eps : ℚ) (i : Nat)
    (h : i < (boxT x_prime x eps).length)
    (h1 : i < x_prime.length) (h2 : i < x.length) :
    (boxT x_prime x eps).get ⟨i, h⟩ =
      box (x_prime.get ⟨i, h1⟩) (x.get ⟨i, h2⟩) eps := by
  simp [boxT]

theorem length_boxT (x_prime x : List ℚ) (eps : ℚ) :
    (boxT x_prime x eps).length = min x_prime.length x.length := by
  simp [boxT]

/-- Scalar form of the containment-and-projection property of `box`: when
`0 ≤ eps` and the reference coordinate lies in `[0, 1]`, the output is
clamped into `[max 0 (x - eps), min 1 (x + eps)]` and is the closest point
of that interval to `x_prime`. -/
theorem box_clamps (x_prime x eps : ℚ) (heps : 0 ≤ eps)
    (hx0 : 0 ≤ x) (hx1 : x ≤ 1) :
    max 0 (x - eps) ≤ box x_prime x eps ∧
    box x_prime x eps ≤ min 1 (x + eps) ∧
    ∀ y, max 0 (x - eps) ≤ y → y ≤ min 1 (x + eps) →
      |box x_prime x eps - x_prime| ≤ |y - x_prime| := by
  set l := max 0 (x - eps) with hl
  set u := min 1 (x + eps) with hu
  have hlx : l ≤ x := max_le hx0 (by linarith)
  have hxu : x ≤ u := le_min hx1 (by linarith)
  have hlu : l ≤ u := le_trans hlx hxu
  refine ⟨le_max_left _ _, max_le hlu (min_le_right _ _), ?_⟩
  intro y hyl hyu
  rcases le_total x_prime l with hpl | hpl
  · have hb : box x_prime x eps = l := by
      have : min x_prime u = x_prime := min_eq_left (le_trans hpl hlu)
      rw [box]; rw [← hl, ← hu, this]
      exact max_eq_left hpl
    rw [hb]
    have h1 : |l - x_prime| = l - x_prime := abs_of_nonneg (by linarith)
    have h2 : |y - x_prime| = y - x_prime :=
      abs_of_nonneg (by linarith [le_trans hpl hyl])
    rw [h1, h2]; linarith
  · rcases le_total u x_prime with hup | hup
    · have hb : box x_prime x eps = u := by
        have : min x_prime u = u := min_eq_right hup
        rw [box]; rw [← hl, ← hu, this]
        exact max_eq_right hlu
      rw [hb]
      have h2 : y ≤ x_prime := le_trans hyu hup
      rw [abs_of_nonpos (by linarith), abs_of_nonpos (by linarith)]
      linarith
    · have hb : box x_prime x eps = x_prime := by
        have : min x_prime u = x_prime := min_eq_left hup
        rw [box]; rw [← hl, ← hu, this]
        exact max_eq_right hpl
      rw [hb, sub_self, abs_zero]
      exact abs_nonneg (y - x_prime)

/-- C1.  The claim as frozen quantifies over *every* reference tensor `x`;
it fails when a coordinate of `x` lies outside `[0, 1]`.  With `x = [2]`,
`eps = 0`, `x_prime = [0]` the projector returns `[2]`, which exceeds the
upper bound `min 1 (2 + 0) = 1`. -/
theorem box_containment_cex :
    boxT [(0 : ℚ)] [2] 0 = [2] ∧ ¬ ((2 : ℚ) ≤ min 1 (2 + 0)) := by
  constructor
  · show [box 0 2 0] = [2]
    norm_num [box, max_def, min_def]
  · rw [min_def]
    norm_num

/-- C1 (amended with the data-model precondition that reference
coordinates lie in `[0, 1]`).  For `eps ≥ 0` and every coordinate `i`,
the output of `boxT` lies between `lower = max 0 (x i - eps)` and
`upper = min 1 (x i + eps)` and is the closest point to `x_prime i` in
`[lower, upper]`. -/
theorem box_containment_closest (x_prime x : List ℚ) (eps : ℚ)
    (heps : 0 ≤ eps) (hx : ∀ a ∈ x, 0 ≤ a ∧ a ≤ 1)
    (i : Nat) (h : i < (boxT x_prime x eps).length)
    (h1 : i < x_prime.length) (h2 : i < x.length) :
    max 0 (x.get ⟨i, h2⟩ - eps) ≤ (boxT x_prime x eps).get ⟨i, h⟩ ∧
    (boxT x_prime x eps).get ⟨i, h⟩ ≤ min 1 (x.get ⟨i, h2⟩ + eps) ∧
    ∀ y, max 0 (x.get ⟨i, h2⟩ - eps) ≤ y → y ≤ min 1 (x.get ⟨i, h2⟩ + eps) →
      |(boxT x_prime x eps).get ⟨i, h⟩ - x_prime.get ⟨i, h1⟩| ≤
        |y - x_prime.get ⟨i, h1⟩| := by
  rw [boxT_get x_prime x eps i h h1 h2]
  have hmem := hx (x.get ⟨i, h2⟩) (x.get_mem i h2)
  exact box_clamps _ _ _ heps hmem.1 hmem.2

/-- Witness for `box_containment_closest` at a concrete input. -/
theorem box_containment_closest_witness :
    (0 : ℚ) ≤ 1/8 ∧
    (max 0 ((1:ℚ)/2 - 1/8) ≤ (boxT [(3 : ℚ)/4] [1/2] (1/8)).get ⟨0, by decide⟩ ∧
     (boxT [(3 : ℚ)/4] [1/2] (1/8)).get ⟨0, by decide⟩ ≤ min 1 ((1:ℚ)/2 + 1/8) ∧
     ∀ y, max 0 ((1:ℚ)/2 - 1/8) ≤ y → y ≤ min 1 ((1:ℚ)/2 + 1/8) →
       |(boxT [(3 : ℚ)/4] [1/2] (1/8)).get ⟨0, by decide⟩ - ([(3 : ℚ)/4]).get ⟨0, by decide⟩| ≤
         |y - ([(3 : ℚ)/4]).get ⟨0, by decide⟩|) := by
  refine ⟨by norm_num, ?_⟩
  exact box_containment_closest [(3 : ℚ)/4] [1/2] (1/8) (by norm_num)
    (by intro a ha; simp at ha; norm_num [ha])
    0 (by decide) (by decide) (by decide)

/-- Scalar idempotence of the clamp, valid for every `x_prime`, `x` and
`eps` (negative radii included): the two-sided clamp is a retraction. -/
theorem box_idem (x_prime x eps : ℚ) :
    box (box x_prime x eps) x eps = box x_prime x eps := by
  set l := max 0 (x - eps)
  set u := min 1 (x + eps)
  show max l (min (max l (min x_prime u)) u) = max l (min x_prime u)
  rw [min_max_distrib_right, min_eq_left (min_le_right x_prime u),
    ← max_assoc, max_eq_left (min_le_left l u)]

/-- C3.  The projector is idempotent on whole tensors: projecting an
already-projected tensor changes nothing, for all tensors and every
`eps`. -/
theorem boxT_idem (x_prime x : List ℚ) (eps : ℚ) :
    boxT (boxT x_prime x eps) x eps = boxT x_prime x eps := by
  induction x_prime generalizing x with
  | nil => simp [boxT]
  | cons a as ih =>
    cases x with
    | nil => simp [boxT]
    | cons b bs => simpa [boxT, box_idem] using ih bs

/-- C4.  The claim as frozen quantifies over *every* reference tensor `x`;
it fails when a coordinate of `x` is negative: with `x = [-1]`, `eps = 0`,
`x_prime = [0]` the projector returns `[0]`, not `x`. -/
theorem box_zero_radius_cex :
    boxT [(0 : ℚ)] [-1] 0 ≠ [-1] := by
  norm_num [boxT, box, max_def, min_def]

/-- Scalar form: with radius `0` and a nonnegative reference coordinate,
the clamp collapses to the reference. -/
theorem box_zero_radius (x_prime x : ℚ) (hx : 0 ≤ x) :
    box x_prime x 0 = x := by
  have hl : max 0 (x - 0) = x := by rw [sub_zero]; exact max_eq_right hx
  have hu : min x_prime (min 1 (x + 0)) ≤ x := by
    rw [add_zero]
    exact le_trans (min_le_right _ _) (min_le_right _ _)
  rw [box, hl]
  exact max_eq_left hu

/-- C4 (amended: tensors of equal shape, reference coordinates
nonnegative).  With `eps = 0` the projector returns exactly `x` for every
candidate `x_prime`. -/
theorem boxT_zero_radius (x_prime x : List ℚ)
    (hlen : x_prime.length = x.length) (hx : ∀ a ∈ x, 0 ≤ a) :
    boxT x_prime x 0 = x := by
  induction x_prime generalizing x with
  | nil =>
    cases x with
    | nil => rfl
    | cons b bs => simp at hlen
  | cons a as ih =>
    cases x with
    | nil => simp at hlen
    | cons b bs =>
      have hb : 0 ≤ b := hx b (List.mem_cons_self b bs)
      have hbs : ∀ a ∈ bs, 0 ≤ a := fun a ha => hx a (List.mem_cons_of_mem b ha)
      simp only [boxT, List.zipWith_cons_cons]
      rw [box_zero_radius a b hb]
      have := ih bs (by simpa using hlen) hbs
      simpa [boxT] using this

/-- Witness for `boxT_zero_radius` at a concrete input. -/
theorem boxT_zero_radius_witness :
    ([(5 : ℚ)] : List ℚ).length = ([(1 : ℚ)/2] : List ℚ).length ∧
    boxT [(5 : ℚ)] [1/2] 0 = [1/2] := by
  refine ⟨by simp, ?_⟩
  exact boxT_zero_radius [(5 : ℚ)] [1/2] (by simp)
    (by intro a ha; simp at ha; norm_num [ha])

/-- L∞ norm of a flattened sample, as computed by
`torch.norm(·, p=inf, dim=1)`. -/
def linfNorm (xs : List ℚ) : ℚ :=
  xs.foldr (fun a m => max |a| m) 0

/-- The per-sample denominator `||x - x_prime||_inf` of the Lipschitz
ratio (lipschitz.py, lines 45-48). -/
def linfDist (x y : List ℚ) : ℚ :=
  linfNorm (List.zipWith (fun a b => a - b) x y)

/-- The randomly initialised perturbed sample (lipschitz.py, line 52):
`box(x + step_size * noise, x, eps)`.  The Gaussian noise drawn by
`torch.randn_like` enters as the oracle parameter `nu`. -/
def initPoint (x nu : List ℚ) (stepSize eps : ℚ) : List ℚ :=
  boxT (List.zipWith (fun a v => a + stepSize * v) x nu) x eps

theorem linfNorm_nonneg (xs : List ℚ) : 0 ≤ linfNorm xs := by
  induction xs with
  | nil => simp [linfNorm]
  | cons a as ih =>
    simp only [linfNorm, List.foldr_cons] at *
    exact le_trans ih (le_max_right _ _)

theorem abs_le_linfNorm (xs : List ℚ) (a : ℚ) (ha : a ∈ xs) :
    |a| ≤ linfNorm xs := by
  induction xs with
  | nil => cases ha
  | cons b bs ih =>
    simp only [linfNorm, List.foldr_cons] at *
    rcases List.mem_cons.mp ha with rfl | h
    · exact le_max_left _ _
    · exact le_trans (ih h) (le_max_right _ _)

/-- Scalar core of the C2 analysis: a coordinate perturbation `d`
survives the projection (the projected coordinate differs from the
reference) whenever the radius is positive and the perturbation points
into the feasible interval. -/
theorem box_init_ne (xi d eps : ℚ) (heps : 0 < eps)
    (_h0 : 0 ≤ xi) (_h1 : xi ≤ 1)
    (hd : (0 < d ∧ xi < 1) ∨ (d < 0 ∧ 0 < xi)) :
    box (xi + d) xi eps ≠ xi := by
  rcases hd with ⟨hdp, hlt⟩ | ⟨hdn, hgt⟩
  · have hu : xi < min 1 (xi + eps) := lt_min hlt (by linarith)
    have hm : xi < min (xi + d) (min 1 (xi + eps)) := lt_min (by linarith) hu
    have hgtb : xi < box (xi + d) xi eps :=
      lt_of_lt_of_le hm (le_max_right _ _)
    exact ne_of_gt hgtb
  · have hl : max 0 (xi - eps) < xi := max_lt hgt (by linarith)
    have hm : min (xi + d) (min 1 (xi + eps)) < xi :=
      lt_of_le_of_lt (min_le_left _ _) (by linarith)
    have hltb : box (xi + d) xi eps < xi := max_lt hl hm
    exact ne_of_lt hltb

/-- C2.  The claim as frozen quantifies over *every* `step_size` and
`eps`; it fails at `eps = 0`: the projection collapses the perturbation
back onto `x` exactly, so the L∞ denominator is `0` even though the noise
is nonzero.  Sample `x = [1/2] ∈ [0,1]`, noise `[1]`, `step_size = 1`,
`eps = 0`. -/
theorem init_denominator_cex :
    linfDist [(1 : ℚ)/2] (initPoint [(1 : ℚ)/2] [1] 1 0) = 0 := by
  norm_num [linfDist, linfNorm, initPoint, boxT, box, max_def, min_def]

/-- C2 (amended).  With a strictly positive radius, reference
coordinates in `[0, 1]`, and at least one coordinate of the sample where
the scaled noise points into the feasible interval (`step_size * nu > 0`
at a coordinate below `1`, or `< 0` at a coordinate above `0`), the
initial perturbed point differs from `x`, so the L∞ denominator of the
first objective evaluation is strictly positive. -/
theorem init_denominator_pos (x nu : List ℚ) (s eps : ℚ)
    (hlen : nu.length = x.length) (heps : 0 < eps)
    (hx : ∀ a ∈ x, 0 ≤ a ∧ a ≤ 1)
    (hsurv : ∃ i, ∃ h1 : i < x.length, ∃ h2 : i < nu.length,
      (0 < s * nu.get ⟨i, h2⟩ ∧ x.get ⟨i, h1⟩ < 1) ∨
      (s * nu.get ⟨i, h2⟩ < 0 ∧ 0 < x.get ⟨i, h1⟩)) :
    0 < linfDist x (initPoint x nu s eps) := by
  obtain ⟨i, h1, h2, hcond⟩ := hsurv
  have hxplen : (initPoint x nu s eps).length = x.length := by
    simp [initPoint, boxT, hlen]
  have hi2 : i < (initPoint x nu s eps).length := hxplen ▸ h1
  have hcoord : (initPoint x nu s eps).get ⟨i, hi2⟩ =
      box (x.get ⟨i, h1⟩ + s * nu.get ⟨i, h2⟩) (x.get ⟨i, h1⟩) eps := by
    simp [initPoint, boxT]
  have hmem := hx _ (x.get_mem i h1)
  have hne : x.get ⟨i, h1⟩ - (initPoint x nu s eps).get ⟨i, hi2⟩ ≠ 0 := by
    rw [hcoord]
    exact sub_ne_zero.mpr
      (Ne.symm (box_init_ne _ _ _ heps hmem.1 hmem.2 hcond))
  have hdlen : i <
      (List.zipWith (fun a b => a - b) x (initPoint x nu s eps)).length := by
    simp only [List.length_zipWith, hxplen, min_self]
    exact h1
  have hval : (List.zipWith (fun a b => a - b) x
      (initPoint x nu s eps)).get ⟨i, hdlen⟩ =
      x.get ⟨i, h1⟩ - (initPoint x nu s eps).get ⟨i, hi2⟩ := by
    simp
  have hle : |x.get ⟨i, h1⟩ - (initPoint x nu s eps).get ⟨i, hi2⟩| ≤
      linfDist x (initPoint x nu s eps) := by
    rw [← hval]
    exact abs_le_linfNorm _ _ (List.get_mem _ i hdlen)
  exact lt_of_lt_of_le (abs_pos.mpr hne) hle

/-- Witness for `init_denominator_pos` at a concrete input. -/
theorem init_denominator_pos_witness :
    ([(1 : ℚ)] : List ℚ).length = ([(1 : ℚ)/2] : List ℚ).length ∧
    (0 : ℚ) < 1/8 ∧
    0 < linfDist [(1 : ℚ)/2] (initPoint [(1 : ℚ)/2] [1] (1/4) (1/8)) := by
  refine ⟨by simp, by norm_num, ?_⟩
  exact init_denominator_pos [(1 : ℚ)/2] [1] (1/4) (1/8) (by simp)
    (by norm_num) (by intro a ha; simp at ha; norm_num [ha])
    ⟨0, by simp, by simp, Or.inl ⟨by norm_num, by norm_num⟩⟩

/-- Per-sample numerator of the Lipschitz ratio (lipschitz.py,
lines 42-44): `torch.norm(model_x - model_(x_prime), p=1, dim=1)`. -/
def l1dist (x y : List ℚ) : ℚ :=
  (List.zipWith (fun a b => |a - b|) x y).sum

/-- Mean of a list of rationals (`.mean()`). -/
def meanQ (xs : List ℚ) : ℚ :=
  xs.sum / xs.length

/-- The per-sample Lipschitz ratio `f` (lipschitz.py, lines 41-49):
embedding L1 distance over input L∞ distance.  `emb` is the opaque
composition `model_` of the model, the flattening, and the optional L2
normalisation (lines 31-35); its value on the clean sample is the
detached reference embedding `model_x` (line 38). -/
def ratioSample (emb : List ℚ → List ℚ) (x xp : List ℚ) : ℚ :=
  l1dist (emb x) (emb xp) / linfDist x xp

/-- `f(x_prime).mean()`: the scalar objective that is evaluated, tracked
in the running maximum, and differentiated (lines 53, 56, 62). -/
def objMean (emb : List ℚ → List ℚ) (x xp : List (List ℚ)) : ℚ :=
  meanQ (List.zipWith (ratioSample emb) x xp)

/-- `torch.sign`, per coordinate. -/
def signQ (a : ℚ) : ℚ :=
  if 0 < a then 1 else if a < 0 then -1 else 0

/-- The batch-level initial perturbation (line 52), one `initPoint` per
sample; `nu` collects the per-sample Gaussian noise draws. -/
def initBatch (x nu : List (List ℚ)) (s eps : ℚ) : List (List ℚ) :=
  List.zipWith (fun xi nui => initPoint xi nui s eps) x nu

/-- One ascent step (lines 59-60):
`box(x_prime + step_size * x_prime.grad.sign(), x, eps)`, where `grad`
is the automatic-differentiation oracle returning the gradient of the
mean objective at the current perturbation. -/
def ascentStep (grad : List (List ℚ) → List (List ℚ))
    (x : List (List ℚ)) (s eps : ℚ) (xp : List (List ℚ)) : List (List ℚ) :=
  List.zipWith (fun cand xi => boxT cand xi eps)
    (List.zipWith (fun pi gi =>
        List.zipWith (fun a g => a + s * signQ g) pi gi)
      xp (grad xp)) x

/-- The ascent loop of `compute_lipschitz_batch` (lines 55-60): each
iteration evaluates the objective at the current perturbation, folds it
into the running maximum, and steps.  The last component counts the
objective evaluations performed so far. -/
def lipLoop {σ : Type} (f : σ → ℚ) (step : σ → σ) :
    Nat → ℚ → σ → Nat → ℚ × σ × Nat
  | 0, m, xp, c => (m, xp, c)
  | n + 1, m, xp, c => lipLoop f step n (max m (f xp)) (step xp) (c + 1)

/-- `compute_lipschitz_batch` (lipschitz.py, lines 22-62), instrumented
with the count of objective evaluations: one at initialisation
(line 53, starting count `1`), one per loop iteration (line 56), and one
after the loop (line 62, the final `+ 1`). -/
def computeLipschitzBatchFull (emb : List ℚ → List ℚ)
    (grad : List (List ℚ) → List (List ℚ)) (x nu : List (List ℚ))
    (s eps : ℚ) (n : Nat) : ℚ × Nat :=
  let f := fun xp => objMean emb x xp
  let xp0 := initBatch x nu s eps
  let r := lipLoop f (ascentStep grad x s eps) n (f xp0) xp0 1
  (max r.1 (f r.2.1), r.2.2 + 1)

/-- The value returned by `compute_lipschitz_batch`. -/
def computeLipschitzBatch (emb : List ℚ → List ℚ)
    (grad : List (List ℚ) → List (List ℚ)) (x nu : List (List ℚ))
    (s eps : ℚ) (n : Nat) : ℚ :=
  (computeLipschitzBatchFull emb grad x nu s eps n).1

theorem lipLoop_fst_ge {σ : Type} (f : σ → ℚ) (step : σ → σ) (n : Nat) :
    ∀ (m : ℚ) (xp : σ) (c : Nat), m ≤ (lipLoop f step n m xp c).1 := by
  induction n with
  | zero => intro m xp c; exact le_refl m
  | succ n ih =>
    intro m xp c
    rw [lipLoop]
    exact le_trans (le_max_left m (f xp)) (ih (max m (f xp)) (step xp) (c + 1))

theorem lipLoop_count {σ : Type} (f : σ → ℚ) (step : σ → σ) (n : Nat) :
    ∀ (m : ℚ) (xp : σ) (c : Nat), (lipLoop f step n m xp c).2.2 = c + n := by
  induction n with
  | zero => intro m xp c; rfl
  | succ n ih =>
    intro m xp c
    rw [lipLoop, ih]
    omega

/-- C5.  The estimate returned by `compute_lipschitz_batch` is a running
maximum over all objective evaluations, so for every batch, noise draw,
hyperparameters and every `n_steps` it is at least the mean objective at
the very first (randomly initialised, projected) perturbed point. -/
theorem batch_ge_initial (emb : List ℚ → List ℚ)
    (grad : List (List ℚ) → List (List ℚ)) (x nu : List (List ℚ))
    (s eps : ℚ) (n : Nat) :
    objMean emb x (initBatch x nu s eps) ≤
      computeLipschitzBatch emb grad x nu s eps n := by
  simp only [computeLipschitzBatch, computeLipschitzBatchFull]
  exact le_trans (lipLoop_fst_ge _ _ n _ _ _) (le_max_left _ _)

/-- C6.  `compute_lipschitz_batch` evaluates the objective exactly
`n_steps + 2` times: once at initialisation, once per loop iteration,
and once after the loop. -/
theorem batch_eval_count (emb : List ℚ → List ℚ)
    (grad : List (List ℚ) → List (List ℚ)) (x nu : List (List ℚ))
    (s eps : ℚ) (n : Nat) :
    (computeLipschitzBatchFull emb grad x nu s eps n).2 = n + 2 := by
  simp only [computeLipschitzBatchFull]
  rw [lipLoop_count]
  omega

/-- C10.  With `n_steps = 0` the loop body never runs, the initial and
final objective evaluations happen at the same point, and
`compute_lipschitz_batch` returns exactly the mean objective at the
random initial projected perturbation. -/
theorem batch_zero_steps (emb : List ℚ → List ℚ)
    (grad : List (List ℚ) → List (List ℚ)) (x nu : List (List ℚ))
    (s eps : ℚ) :
    computeLipschitzBatch emb grad x nu s eps 0 =
      objMean emb x (initBatch x nu s eps) := by
  simp [computeLipschitzBatch, computeLipschitzBatchFull, lipLoop]

/-- `compute_lipschitz` (lipschitz.py, lines 65-104): iterates the batch
estimator over the dataloader's batches in order, accumulating the sum
`lips`, and finally returns `lips / len(dl)`.  `gradOf` and `nuOf` are
the per-batch gradient and noise oracles.  Python raises
`ZeroDivisionError` on the final division when the loader holds no
batches; that fallible division is modelled with `Option`. -/
def computeLipschitz (emb : List ℚ → List ℚ)
    (gradOf : List (List ℚ) → List (List ℚ) → List (List ℚ))
    (nuOf : List (List ℚ) → List (List ℚ))
    (batches : List (List (List ℚ))) (eps stepSize : ℚ) (n : Nat) :
    Option ℚ :=
  let lips := batches.foldl
    (fun acc x =>
      acc + computeLipschitzBatch emb (gradOf x) x (nuOf x) stepSize eps n)
    0
  if batches.length = 0 then none else some (lips / (batches.length : ℚ))

theorem foldl_add_map {α : Type} (g : α → ℚ) (l : List α) :
    ∀ a : ℚ, l.foldl (fun acc b => acc + g b) a = a + (l.map g).sum := by
  induction l with
  | nil => intro a; simp
  | cons b bs ih =>
    intro a
    rw [List.foldl_cons, ih, List.map_cons, List.sum_cons]
    ring

/-- C7.  On a non-empty sequence of batches, `compute_lipschitz` returns
the arithmetic mean of the per-batch estimates: the sum of
`compute_lipschitz_batch` over the batches, processed in order, divided
by the number of batches. -/
theorem compute_lipschitz_mean (emb : List ℚ → List ℚ)
    (gradOf : List (List ℚ) → List (List ℚ) → List (List ℚ))
    (nuOf : List (List ℚ) → List (List ℚ))
    (batches : List (List (List ℚ))) (eps stepSize : ℚ) (n : Nat)
    (h : batches ≠ []) :
    computeLipschitz emb gradOf nuOf batches eps stepSize n =
      some ((batches.map (fun x =>
          computeLipschitzBatch emb (gradOf x) x (nuOf x) stepSize eps n)).sum /
        (batches.length : ℚ)) := by
  simp only [computeLipschitz]
  rw [foldl_add_map, zero_add,
    if_neg (fun hc => h (List.length_eq_zero.mp hc))]

/-- Witness for `compute_lipschitz_mean`: the identity model on a single
one-sample batch has estimate `1`. -/
theorem compute_lipschitz_mean_witness :
    ([[[(1 : ℚ)/2]]] : List (List (List ℚ))) ≠ [] ∧
    computeLipschitz (fun v => v) (fun _ _ => [[0]]) (fun _ => [[1]])
      [[[(1 : ℚ)/2]]] (1/8) (1/4) 0 = some 1 := by
  refine ⟨by simp, ?_⟩
  rw [compute_lipschitz_mean (fun v => v) (fun _ _ => [[0]]) (fun _ => [[1]])
    [[[(1 : ℚ)/2]]] (1/8) (1/4) 0 (by simp)]
  norm_num [computeLipschitzBatch, computeLipschitzBatchFull, lipLoop,
    objMean, initBatch, initPoint, boxT, box, ratioSample, l1dist,
    linfDist, linfNorm, meanQ, max_def, min_def]

/-- Model of the external `DataLoader` collaborator as configured in
`benchmark_lipschitz` (lipschitz.py, lines 123-126): consecutive batches
of `batchSize` samples, with `drop_last=True` dropping the final
incomplete batch, so `len(dl) = n_examples / batch_size` (integer
division). -/
def batchesOf {α : Type} (batchSize : Nat) (xs : List α) : List (List α) :=
  (List.range (xs.length / batchSize)).map
    (fun i => (xs.drop (i * batchSize)).take batchSize)

/-- C9.  When the dataset holds fewer examples than `batch_size`, the
dataloader with `drop_last=True` yields zero batches and
`compute_lipschitz` hits the division by `len(dl) = 0` instead of
returning a value. -/
theorem compute_lipschitz_empty_loader (emb : List ℚ → List ℚ)
    (gradOf : List (List ℚ) → List (List ℚ) → List (List ℚ))
    (nuOf : List (List ℚ) → List (List ℚ))
    (xs : List (List ℚ)) (batchSize : Nat) (eps stepSize : ℚ) (n : Nat)
    (h : xs.length < batchSize) :
    computeLipschitz emb gradOf nuOf (batchesOf batchSize xs) eps stepSize n =
      none := by
  have h0 : xs.length / batchSize = 0 := Nat.div_eq_of_lt h
  simp [computeLipschitz, batchesOf, h0]

/-- Witness for `compute_lipschitz_empty_loader`: one example, default
batch size 16. -/
theorem compute_lipschitz_empty_loader_witness :
    ([[(0 : ℚ)]] : List (List ℚ)).length < 16 ∧
    computeLipschitz (fun v => v) (fun _ _ => []) (fun _ => [])
      (batchesOf 16 [[(0 : ℚ)]]) (8/255) (8/765) 50 = none := by
  refine ⟨by simp, ?_⟩
  exact compute_lipschitz_empty_loader _ _ _ _ _ _ _ _ (by simp)

/-- The layer loop of `benchmark_lipschitz` (lipschitz.py,
lines 130-135): `net` is the growing `nn.Sequential` (identified with
its list of layers) and `lips` the accumulator of per-prefix
estimates. -/
def benchLoop {L : Type} (estimate : List L → ℚ) :
    List L → List L → List ℚ → List ℚ
  | [], _, lips => lips
  | l :: rest, net, lips =>
      benchLoop estimate rest (net ++ [l]) (lips ++ [estimate (net ++ [l])])

/-- `benchmark_lipschitz` (lipschitz.py, lines 107-137): starting from
an empty sequential model, appends each Lipschitz-relevant layer in turn
and records the dataset estimate of the growing sequential model.
`estimate` abstracts `compute_lipschitz` applied to the fixed dataloader
and hyperparameters. -/
def benchmarkLipschitz {L : Type} (estimate : List L → ℚ)
    (layers : List L) : List ℚ :=
  benchLoop estimate layers [] []

theorem benchLoop_eq {L : Type} (estimate : List L → ℚ) (rest : List L) :
    ∀ (net : List L) (lips : List ℚ),
      benchLoop estimate rest net lips =
        lips ++ (List.range rest.length).map
          (fun i => estimate (net ++ rest.take (i + 1))) := by
  induction rest with
  | nil => intro net lips; simp [benchLoop]
  | cons l rest ih =>
    intro net lips
    rw [benchLoop, ih, List.append_assoc, List.length_cons,
      List.range_succ_eq_map, List.map_cons, List.map_map,
      List.singleton_append]
    congr 1
    congr 1
    simp [Function.comp, List.take_succ_cons, List.append_assoc]

/-- C8.  The layer-wise driver returns one scalar per Lipschitz-relevant
layer, in layer order, the `i`-th being the dataset estimate of the
sequential model made of the first `i + 1` layers. -/
theorem benchmark_layerwise {L : Type} (estimate : List L → ℚ)
    (layers : List L) :
    (benchmarkLipschitz estimate layers).length = layers.length ∧
    benchmarkLipschitz estimate layers =
      (List.range layers.length).map
        (fun i => estimate (layers.take (i + 1))) := by
  have h := benchLoop_eq estimate layers [] []
  simp only [benchmarkLipschitz, h, List.nil_append]
  simp

end Advbench
